import Mathlib

/-!
Verification of the real-time notification + cached query layer of the
Serviceportal repository: the read-through cache (`server/cache.ts`), the
WebSocket fan-out manager (`server/websocket.ts`) and the cache-related
behaviour of the HTTP route handlers (`routes` variant with caching).

The TypeScript sources are embedded shallowly: every stateful operation is a
pure Lean function from an explicit state to a new state (plus observable
outputs such as deliveries, pings or logged failures).  JavaScript runtime
behaviours that the code relies on (truthiness, `String.prototype.includes`,
`Array.prototype.splice` at `indexOf`, `Map` semantics) are modelled
explicitly and named accordingly.
-/

/-! ## JavaScript values

Cache values and broadcast payloads are arbitrary JavaScript values; the
fragment below (null, booleans, integer numbers, strings, arrays) is enough
for everything the cache and the fan-out manager observe about them.  The
only operation the embedded code performs on a value is the truthiness test
`if (cached)` and `JSON.stringify`. -/

inductive JsVal where
  | vNull : JsVal
  | vBool (b : Bool) : JsVal
  | vNum (n : Int) : JsVal
  | vStr (s : String) : JsVal
  | vArr (elems : List JsVal) : JsVal

/-- JavaScript truthiness: `null`, `false`, `0` and `""` are falsy; every
object (in particular every array, even an empty one) is truthy. -/
def jsTruthy : JsVal → Bool
  | JsVal.vNull => false
  | JsVal.vBool b => b
  | JsVal.vNum n => decide (n ≠ 0)
  | JsVal.vStr s => decide (s ≠ "")
  | JsVal.vArr _ => true

/-- `JSON.stringify`, restricted to the value fragment above.  String
escaping is elided (no value in this development contains a quote). -/
def jsonStringify : JsVal → String
  | JsVal.vNull => "null"
  | JsVal.vBool b => cond b "true" "false"
  | JsVal.vNum n => toString n
  | JsVal.vStr s => "\x22" ++ s ++ "\x22"
  | JsVal.vArr elems =>
      "[" ++ String.intercalate "," (elems.attach.map (fun x => jsonStringify x.1)) ++ "]"
decreasing_by
  simp_wf
  have h := List.sizeOf_lt_of_mem x.2
  omega

/-- `String.prototype.includes`: substring containment. -/
def jsIncludes (s pat : String) : Bool :=
  decide (pat.toList <:+: s.toList)

/-! ## Association-list model of a JavaScript `Map` / plain-object store

`node-cache` stores entries in a plain object and the WebSocket manager keeps
its registry in a `Map<string, AuthenticatedWebSocket[]>`; both have unique
keys.  `mapGet` reads the first binding, `mapSet` overwrites the first
binding (or appends a fresh one) and `mapDelete` drops the bindings of a
key. -/

def mapGet [DecidableEq κ] : List (κ × α) → κ → Option α
  | [], _ => none
  | p :: t, k => if p.1 = k then some p.2 else mapGet t k

def mapSet [DecidableEq κ] : List (κ × α) → κ → α → List (κ × α)
  | [], k, v => [(k, v)]
  | p :: t, k, v => if p.1 = k then (k, v) :: t else p :: mapSet t k v

def mapDelete [DecidableEq κ] : List (κ × α) → κ → List (κ × α)
  | [], _ => []
  | p :: t, k => if p.1 = k then mapDelete t k else p :: mapDelete t k

/-! ## The read-through cache (`server/cache.ts`)

State: key → (value, absolute expiry instant).  `node-cache` is created with
`stdTTL: 300`; `cache.set(key, v, ttl)` stores `v` until `now + ttl` and
`cache.set(key, v)` until `now + 300`.  An expired entry behaves as absent on
read (`node-cache` collects it lazily; the collection itself is not
observable through `get`).  Both call sites of `withCache` pass a positive
ttl (60) or none, so `node-cache`'s special case `ttl = 0` (keep forever) is
never exercised and is not modelled. -/

abbrev CacheState := List (String × JsVal × Nat)

/-- Default `stdTTL` of the `NodeCache` instance (seconds). -/
def stdTTL : Nat := 300

def ttlValue : Option Nat → Nat
  | some t => t
  | none => stdTTL

/-- `cache.get(key)` at instant `now`: the stored value if its expiry lies
strictly in the future, otherwise a miss. -/
def cacheLookup (st : CacheState) (now : Nat) (key : String) : Option JsVal :=
  match mapGet st key with
  | some (v, expiry) => if now < expiry then some v else none
  | none => none

structure WithCacheResult where
  result : Except String JsVal
  cache : CacheState
  fetchInvoked : Bool

/-- `withCache` (`server/cache.ts` lines 9-27).

```
const cached = cache.get<T>(key);
if (cached) { return Promise.resolve(cached); }
return fetcher().then(result => {
  if (ttl !== undefined) { cache.set(key, result, ttl); }
  else { cache.set(key, result); }
  return result;
});
```

The cached value is gated by JavaScript truthiness (`if (cached)`), not by
presence; `fetcher` is the settled outcome of the supplied promise, so a
rejection (`Except.error`) propagates and skips the `then` continuation. -/
def withCache (st : CacheState) (now : Nat) (key : String)
    (fetcher : Except String JsVal) (ttl : Option Nat) : WithCacheResult :=
  let fetchAndStore : WithCacheResult :=
    match fetcher with
    | Except.ok r => ⟨Except.ok r, mapSet st key (r, now + ttlValue ttl), true⟩
    | Except.error e => ⟨Except.error e, st, true⟩
  match cacheLookup st now key with
  | some v => if jsTruthy v then ⟨Except.ok v, st, false⟩ else fetchAndStore
  | none => fetchAndStore

/-- `invalidateCache` (`server/cache.ts` lines 29-33): collect the keys,
filter those containing the pattern as a substring, delete them.  The net
effect on the store is keeping exactly the non-matching bindings. -/
def invalidateCache (st : CacheState) (pattern : String) : CacheState :=
  st.filter (fun p => !(jsIncludes p.1 pattern))

/-- The `keys` field of `getCacheStats` (`server/cache.ts` lines 35-40):
`cache.keys().length`.  The hit/miss counters live inside `node-cache` and
are not part of the embedded state. -/
def getCacheStats (st : CacheState) : Nat :=
  (st.map Prod.fst).length

/-! ## The WebSocket fan-out manager (`server/websocket.ts`)

A connection (`AuthenticatedWebSocket`) is identified by an opaque id (object
identity in JavaScript) and carries the mutable fields the manager touches:
`userId`, `companyId` (`undefined` is `none`; `handleConnection` assigns
`user.companyId || undefined`, so `some 0` never arises from the code),
`readyState` and `isAlive`.

The manager state has two parts, mirroring the two collections the source
reads: `conns` models `wss.clients` (the server's set of live sockets,
holding each socket's current field values) and `groups` models the private
`clients : Map<string, AuthenticatedWebSocket[]>` registry, storing
connection ids.  A group member whose id has no `conns` entry corresponds to
a terminated socket that is still referenced by the registry; its
`readyState` is no longer `OPEN`. -/

inductive RS where
  | CONNECTING : RS
  | OPEN : RS
  | CLOSING : RS
  | CLOSED : RS
deriving DecidableEq

structure ConnState where
  userId : String
  companyId : Option Int
  readyState : RS
  isAlive : Option Bool
deriving DecidableEq

structure WSState where
  conns : List (Nat × ConnState)
  groups : List (String × List Nat)
deriving DecidableEq

structure UserRec where
  uid : String
  companyId : Option Int
deriving DecidableEq

/-- Template-literal rendering of `user.companyId` in
`` `company_${user.companyId}` ``: a `null` company id prints as the string
`null`. -/
def jsShowOptInt : Option Int → String
  | some n => toString n
  | none => "null"

def companyKeyOfInt (n : Int) : String :=
  "company_" ++ toString n

/-- The registration part of `handleConnection` (`server/websocket.ts`
lines 49-59), reached after token and user resolution succeed:

```
ws.userId = userId;
ws.companyId = user.companyId || undefined;
ws.isAlive = true;
const companyKey = `company_${user.companyId}`;
if (!this.clients.has(companyKey)) { this.clients.set(companyKey, []); }
this.clients.get(companyKey)?.push(ws);
```

Note the asymmetry the source contains: the field `ws.companyId` is the
truthiness-coerced `user.companyId || undefined`, while the registry key is
built from the raw `user.companyId`.  Connections that fail authentication
are closed before reaching this point and never enter the registry. -/
def handleConnection (st : WSState) (wsId : Nat) (user : UserRec) : WSState :=
  let coerced : Option Int :=
    match user.companyId with
    | some n => if n = 0 then none else some n
    | none => none
  let c : ConnState := ⟨user.uid, coerced, RS.OPEN, some true⟩
  let key := "company_" ++ jsShowOptInt user.companyId
  { conns := st.conns ++ [(wsId, c)]
    groups :=
      match mapGet st.groups key with
      | some ids => mapSet st.groups key (ids ++ [wsId])
      | none => mapSet st.groups key [wsId] }

/-- `removeClient` (`server/websocket.ts` lines 119-133):

```
if (ws.companyId) {
  const companyKey = `company_${ws.companyId}`;
  const clients = this.clients.get(companyKey);
  if (clients) {
    const index = clients.indexOf(ws);
    if (index > -1) { clients.splice(index, 1); }
    if (clients.length === 0) { this.clients.delete(companyKey); }
  }
}
```

`ws.companyId` being `undefined` (or `0`) is falsy, so the whole body is
skipped; `indexOf`/`splice` remove the first occurrence.  The connection
object's own fields are untouched, and the function cannot raise: every
path is a plain map/array operation guarded by the preceding checks. -/
def removeClient (st : WSState) (wsId : Nat) (c : ConnState) : WSState :=
  match c.companyId with
  | some n =>
      if n = 0 then st
      else
        match mapGet st.groups (companyKeyOfInt n) with
        | some ids =>
            let ids2 := ids.erase wsId
            if ids2 = [] then { st with groups := mapDelete st.groups (companyKeyOfInt n) }
            else { st with groups := mapSet st.groups (companyKeyOfInt n) ids2 }
        | none => st
  | none => st

/-- `ws.terminate()`: the socket is destroyed and leaves `wss.clients`.  The
subsequent `close` event runs `removeClient` a second time; in the heartbeat
sweep that second call follows the sweep's own `removeClient` and is a
no-op by idempotence, so it is not replayed here. -/
def wsTerminate (st : WSState) (wsId : Nat) : WSState :=
  { st with conns := st.conns.filter (fun q => q.1 ≠ wsId) }

def markPending (c : ConnState) : ConnState :=
  { c with isAlive := some false }

/-- `ws.isAlive = false` on the socket with the given id. -/
def setAlivePending (st : WSState) (wsId : Nat) : WSState :=
  { st with conns := st.conns.map (fun q => if q.1 = wsId then (q.1, markPending q.2) else q) }

/-- One iteration of the heartbeat body for one socket
(`server/websocket.ts` lines 136-144): a socket whose `isAlive` is exactly
`false` is removed from its group and terminated; any other socket is marked
pending and pinged (the second component accumulates the pinged ids). -/
def sweepStep (acc : WSState × List Nat) (p : Nat × ConnState) : WSState × List Nat :=
  if p.2.isAlive = some false then
    (wsTerminate (removeClient acc.1 p.1 p.2) p.1, acc.2)
  else
    (setAlivePending acc.1 p.1, acc.2 ++ [p.1])

/-- The `setInterval` body of `setupHeartbeat` (`server/websocket.ts`
lines 135-147): `wss.clients.forEach(...)` over the sockets present when the
timer fires.  Each step touches only the socket it visits (and that socket's
group entry), so iterating a snapshot of the set is faithful. -/
def heartbeatSweep (st : WSState) : WSState × List Nat :=
  st.conns.foldl sweepStep (st, [])

/-- The heartbeat interval: 30000 ms. -/
def heartbeatIntervalMs : Nat := 30000

def connGet (st : WSState) (wsId : Nat) : Option ConnState :=
  mapGet st.conns wsId

/-- `client.readyState === WebSocket.OPEN`, read through the registry's
object reference; a terminated socket (no `conns` entry) is not open. -/
def connOpen (st : WSState) (wsId : Nat) : Bool :=
  match connGet st wsId with
  | some c => decide (c.readyState = RS.OPEN)
  | none => false

/-- The `error` listener registered in `handleConnection`
(`server/websocket.ts` lines 80-83): `console.error(...)` followed by
`this.removeClient(ws)`.  The `ws` library reports a failed
`send` on an open socket through this event instead of throwing, so the
failure is consumed here and never reaches the caller of the broadcast. -/
def wsErrorEvent (st : WSState) (wsId : Nat) : WSState :=
  match connGet st wsId with
  | some c => removeClient st wsId c
  | none => st

/-- One `clients.forEach` iteration of `broadcastToCompany`: sockets not in
the `OPEN` state are skipped; for open sockets `client.send(messageStr)` is
attempted, and the environment oracle `sendFails` decides whether the write
succeeds (first accumulator: deliveries) or fails (second accumulator: ids
whose failure the `ws` library will surface on the error listener). -/
def sendStep (st : WSState) (msgStr : String) (sendFails : Nat → Bool)
    (acc : List (Nat × String) × List Nat) (wsId : Nat) : List (Nat × String) × List Nat :=
  if connOpen st wsId then
    if sendFails wsId then (acc.1, acc.2 ++ [wsId])
    else (acc.1 ++ [(wsId, msgStr)], acc.2)
  else acc

structure BroadcastResult where
  state : WSState
  delivered : List (Nat × String)
  failed : List Nat

/-- `broadcastToCompany` (`server/websocket.ts` lines 150-162):

```
const companyKey = `company_${companyId}`;
const clients = this.clients.get(companyKey);
if (clients) {
  const messageStr = JSON.stringify(message);
  clients.forEach(client => {
    if (client.readyState === WebSocket.OPEN) { client.send(messageStr); }
  });
}
```

The event is serialized once and written to every open socket of the group.
Send failures are emitted on each failing socket's `error` event after the
loop (the `ws` library reports them asynchronously), where the registered
listener logs and runs `removeClient`; `failed` lists exactly the sockets
routed to that listener. -/
def broadcastToCompany (st : WSState) (companyId : Int) (msg : JsVal)
    (sendFails : Nat → Bool) : BroadcastResult :=
  match mapGet st.groups (companyKeyOfInt companyId) with
  | none => ⟨st, [], []⟩
  | some ids =>
      let msgStr := jsonStringify msg
      let sent := ids.foldl (sendStep st msgStr sendFails) ([], [])
      ⟨sent.2.foldl wsErrorEvent st, sent.1, sent.2⟩

/-- The members of a company's group, as `broadcastToCompany` reads them. -/
def groupConns (st : WSState) (companyId : Int) : List Nat :=
  (mapGet st.groups (companyKeyOfInt companyId)).getD []

/-! ## Cache use by the HTTP route handlers (routes file, `part_005`)

Only the cache/notification effects are embedded; the database write and the
JSON response are recorded as opaque actions so the action trace of each
handler can be inspected. -/

inductive ApiAction where
  | dbUpdateConversation (conversationId : Int) : ApiAction
  | dbCreateMessage (conversationId : Int) : ApiAction
  | invalidate (pattern : String) : ApiAction
  | wsNotifyNewMessage (companyId : Int) (conversationId : Int) : ApiAction
  | respondJson : ApiAction
deriving DecidableEq

def isInvalidateAction : ApiAction → Bool
  | ApiAction.invalidate _ => true
  | _ => false

/-- The success path of `app.put('/api/conversations/:id')` (`part_005`
lines 212-221): `storage.updateConversation(...)` then `res.json(...)`.
The handler contains no cache operation, so the cache state passes through
unchanged. -/
def putConversationHandler (st : CacheState) (conversationId : Int) :
    CacheState × List ApiAction :=
  (st, [ApiAction.dbUpdateConversation conversationId, ApiAction.respondJson])

/-- The success path of `app.post('/api/messages')` (`part_005`
lines 228-255) for a user with a (truthy) company id:
`storage.createMessage(...)`, then
`invalidateCache(`conversations:${user.companyId}`)`, then
`wsManager.notifyNewMessage(...)`, then `res.json(message)`. -/
def postMessagesHandler (st : CacheState) (companyId : Int) (conversationId : Int) :
    CacheState × List ApiAction :=
  let key := "conversations:" ++ toString companyId
  (invalidateCache st key,
   [ApiAction.dbCreateMessage conversationId, ApiAction.invalidate key,
    ApiAction.wsNotifyNewMessage companyId conversationId, ApiAction.respondJson])

/-- The cache key used by `app.get('/api/conversations')` (`part_005`
lines 186-190) with ttl 60. -/
def conversationsKey (companyId : Int) : String :=
  "conversations:" ++ toString companyId

/-! ## Association-list lemmas -/

theorem mapGet_mapSet_self [DecidableEq κ] (l : List (κ × α)) (k : κ) (v : α) :
    mapGet (mapSet l k v) k = some v := by
  induction l with
  | nil => simp [mapGet, mapSet]
  | cons p t ih =>
      by_cases h : p.1 = k
      · simp [mapGet, mapSet, h]
      · simp [mapGet, mapSet, h, ih]

theorem mapGet_mapSet_ne [DecidableEq κ] (l : List (κ × α)) (k k2 : κ) (v : α)
    (h : k2 ≠ k) : mapGet (mapSet l k v) k2 = mapGet l k2 := by
  have hkk : ¬k = k2 := fun he => h he.symm
  induction l with
  | nil =>
      simp only [mapSet, mapGet]
      rw [if_neg hkk]
  | cons p t ih =>
      by_cases hp : p.1 = k
      · have h2 : ¬p.1 = k2 := by rw [hp]; exact hkk
        simp only [mapSet, if_pos hp, mapGet, if_neg h2, if_neg hkk]
      · simp only [mapSet, if_neg hp, mapGet]
        by_cases hq : p.1 = k2
        · simp [if_pos hq]
        · simp [if_neg hq, ih]

theorem mapGet_eq_none_of_not_mem [DecidableEq κ] (l : List (κ × α)) (k : κ)
    (h : k ∉ l.map Prod.fst) : mapGet l k = none := by
  induction l with
  | nil => rfl
  | cons p t ih =>
      have hp : p.1 ≠ k := by
        intro he
        exact h (by simp [he])
      simp only [mapGet, if_neg hp]
      exact ih (fun hk => h (by simp [hk]))

theorem mapGet_mem [DecidableEq κ] (l : List (κ × α)) (k : κ) (v : α)
    (h : mapGet l k = some v) : (k, v) ∈ l := by
  induction l with
  | nil => simp [mapGet] at h
  | cons p t ih =>
      by_cases hp : p.1 = k
      · simp only [mapGet, if_pos hp] at h
        have hv : p.2 = v := by injection h
        refine List.mem_cons.mpr (Or.inl ?_)
        cases p
        simp only at hp hv
        rw [← hp, ← hv]
      · simp only [mapGet, if_neg hp] at h
        exact List.mem_cons_of_mem _ (ih h)

theorem mapGet_none_not_mem [DecidableEq κ] (l : List (κ × α)) (k : κ)
    (h : mapGet l k = none) (v : α) : (k, v) ∉ l := by
  induction l with
  | nil => simp
  | cons p t ih =>
      by_cases hp : p.1 = k
      · simp [mapGet, if_pos hp] at h
      · simp only [mapGet, if_neg hp] at h
        intro hm
        rcases List.mem_cons.mp hm with he | hm2
        · exact hp (by rw [← he])
        · exact ih h hm2

theorem mem_mapSet_weak [DecidableEq κ] (l : List (κ × α)) (k : κ) (v : α) (p : κ × α)
    (h : p ∈ mapSet l k v) : p = (k, v) ∨ p ∈ l := by
  induction l with
  | nil => simpa [mapSet] using h
  | cons q t ih =>
      by_cases hq : q.1 = k
      · simp only [mapSet, if_pos hq] at h
        rcases List.mem_cons.mp h with he | hm
        · exact Or.inl he
        · exact Or.inr (List.mem_cons_of_mem _ hm)
      · simp only [mapSet, if_neg hq] at h
        rcases List.mem_cons.mp h with he | hm
        · exact Or.inr (he ▸ List.mem_cons_self _ _)
        · rcases ih hm with h1 | h2
          · exact Or.inl h1
          · exact Or.inr (List.mem_cons_of_mem _ h2)

theorem mapSet_absent [DecidableEq κ] (l : List (κ × α)) (k : κ) (v : α)
    (h : mapGet l k = none) : mapSet l k v = l ++ [(k, v)] := by
  induction l with
  | nil => rfl
  | cons p t ih =>
      by_cases hp : p.1 = k
      · simp [mapGet, if_pos hp] at h
      · simp only [mapGet, if_neg hp] at h
        simp [mapSet, if_neg hp, ih h]

theorem mapSet_keys_of_get [DecidableEq κ] (l : List (κ × α)) (k : κ) (v w : α)
    (h : mapGet l k = some w) : (mapSet l k v).map Prod.fst = l.map Prod.fst := by
  induction l with
  | nil => simp [mapGet] at h
  | cons p t ih =>
      by_cases hp : p.1 = k
      · simp [mapSet, if_pos hp, hp]
      · simp only [mapGet, if_neg hp] at h
        simp [mapSet, if_neg hp, ih h]

theorem mapSet_mapSet_self [DecidableEq κ] (l : List (κ × α)) (k : κ) (v w : α) :
    mapSet (mapSet l k v) k w = mapSet l k w := by
  induction l with
  | nil => simp [mapSet]
  | cons p t ih =>
      by_cases hp : p.1 = k
      · simp [mapSet, if_pos hp]
      · simp [mapSet, if_neg hp, ih]

theorem mem_mapDelete [DecidableEq κ] (l : List (κ × α)) (k : κ) (p : κ × α) :
    p ∈ mapDelete l k ↔ p ∈ l ∧ p.1 ≠ k := by
  induction l with
  | nil => simp [mapDelete]
  | cons q t ih =>
      by_cases hq : q.1 = k
      · simp only [mapDelete, if_pos hq, ih]
        constructor
        · rintro ⟨hm, hne⟩
          exact ⟨List.mem_cons_of_mem _ hm, hne⟩
        · rintro ⟨hm, hne⟩
          rcases List.mem_cons.mp hm with he | hm2
          · exact absurd (he ▸ hq) hne
          · exact ⟨hm2, hne⟩
      · simp only [mapDelete, if_neg hq]
        constructor
        · intro hm
          rcases List.mem_cons.mp hm with he | hm2
          · exact ⟨he ▸ List.mem_cons_self _ _, he ▸ hq⟩
          · rcases ih.mp hm2 with ⟨hm3, hne⟩
            exact ⟨List.mem_cons_of_mem _ hm3, hne⟩
        · rintro ⟨hm, hne⟩
          rcases List.mem_cons.mp hm with he | hm2
          · exact he ▸ List.mem_cons_self _ _
          · exact List.mem_cons_of_mem _ (ih.mpr ⟨hm2, hne⟩)

theorem mapGet_mapDelete_self [DecidableEq κ] (l : List (κ × α)) (k : κ) :
    mapGet (mapDelete l k) k = none := by
  induction l with
  | nil => rfl
  | cons p t ih =>
      by_cases hp : p.1 = k
      · simp [mapDelete, if_pos hp, ih]
      · simp [mapDelete, mapGet, if_neg hp, ih]

theorem mapGet_mapDelete_ne [DecidableEq κ] (l : List (κ × α)) (k k2 : κ)
    (h : k2 ≠ k) : mapGet (mapDelete l k) k2 = mapGet l k2 := by
  induction l with
  | nil => rfl
  | cons p t ih =>
      by_cases hp : p.1 = k
      · have : p.1 ≠ k2 := by rw [hp]; exact fun he => h he.symm
        simp [mapDelete, mapGet, if_pos hp, if_neg this, ih]
      · by_cases hq : p.1 = k2
        · simp [mapDelete, mapGet, if_neg hp, if_pos hq]
        · simp [mapDelete, mapGet, if_neg hp, if_neg hq, ih]

theorem mapDelete_keys_sublist [DecidableEq κ] (l : List (κ × α)) (k : κ) :
    ((mapDelete l k).map Prod.fst).Sublist (l.map Prod.fst) := by
  induction l with
  | nil => simp [mapDelete]
  | cons p t ih =>
      by_cases hp : p.1 = k
      · simp only [mapDelete, if_pos hp, List.map_cons]
        exact ih.cons _
      · simp only [mapDelete, if_neg hp, List.map_cons]
        exact ih.cons₂ _

theorem keys_nodup_unique [DecidableEq κ] (l : List (κ × α)) (k : κ) (a b : α)
    (hnd : (l.map Prod.fst).Nodup) (ha : (k, a) ∈ l) (hb : (k, b) ∈ l) : a = b := by
  induction l with
  | nil => simp at ha
  | cons p t ih =>
      simp only [List.map_cons, List.nodup_cons] at hnd
      rcases List.mem_cons.mp ha with hea | hma
      · rcases List.mem_cons.mp hb with heb | hmb
        · rw [← hea] at heb
          exact (Prod.mk.injEq _ _ _ _ ▸ heb).2.symm
        · exfalso
          exact hnd.1 (by
            have : p.1 = k := by rw [← hea]
            rw [this]
            exact List.mem_map_of_mem Prod.fst hmb)
      · rcases List.mem_cons.mp hb with heb | hmb
        · exfalso
          exact hnd.1 (by
            have : p.1 = k := by rw [← heb]
            rw [this]
            exact List.mem_map_of_mem Prod.fst hma)
        · exact ih hnd.2 hma hmb

/-! ## Cache lemmas -/

theorem jsIncludes_empty_pat (s : String) : jsIncludes s "" = true := by
  simp [jsIncludes]

theorem jsIncludes_self (s : String) : jsIncludes s s = true := by
  simp [jsIncludes]

theorem invalidateCache_keys (st : CacheState) (pat k : String) :
    k ∈ (invalidateCache st pat).map Prod.fst ↔
      (k ∈ st.map Prod.fst ∧ jsIncludes k pat = false) := by
  unfold invalidateCache
  constructor
  · intro hk
    rcases List.mem_map.mp hk with ⟨p, hp, rfl⟩
    rcases List.mem_filter.mp hp with ⟨hmem, hcond⟩
    refine ⟨List.mem_map_of_mem _ hmem, ?_⟩
    simpa using hcond
  · rintro ⟨hk, hfalse⟩
    rcases List.mem_map.mp hk with ⟨p, hp, rfl⟩
    exact List.mem_map_of_mem _ (List.mem_filter.mpr ⟨hp, by simpa using hfalse⟩)

theorem withCache_hit (st : CacheState) (now : Nat) (key : String)
    (f : Except String JsVal) (ttl : Option Nat) (v : JsVal)
    (hl : cacheLookup st now key = some v) (ht : jsTruthy v = true) :
    withCache st now key f ttl = ⟨Except.ok v, st, false⟩ := by
  unfold withCache
  rw [hl]
  simp [ht]

theorem withCache_falsy (st : CacheState) (now : Nat) (key : String)
    (f : Except String JsVal) (ttl : Option Nat) (v : JsVal)
    (hl : cacheLookup st now key = some v) (ht : jsTruthy v = false) :
    withCache st now key f ttl =
      match f with
      | Except.ok r => ⟨Except.ok r, mapSet st key (r, now + ttlValue ttl), true⟩
      | Except.error e => ⟨Except.error e, st, true⟩ := by
  unfold withCache
  rw [hl]
  simp [ht]

theorem withCache_none (st : CacheState) (now : Nat) (key : String)
    (f : Except String JsVal) (ttl : Option Nat)
    (hl : cacheLookup st now key = none) :
    withCache st now key f ttl =
      match f with
      | Except.ok r => ⟨Except.ok r, mapSet st key (r, now + ttlValue ttl), true⟩
      | Except.error e => ⟨Except.error e, st, true⟩ := by
  unfold withCache
  rw [hl]

theorem cacheLookup_stable (st : CacheState) (now1 now2 : Nat) (key : String) (v : JsVal)
    (h1 : cacheLookup st now1 key = some v) (h2 : cacheLookup st now2 key ≠ none) :
    cacheLookup st now2 key = some v := by
  unfold cacheLookup at h1 h2 ⊢
  cases hg : mapGet st key with
  | none => simp [hg] at h1
  | some pr =>
      obtain ⟨w, e⟩ := pr
      simp only [hg] at h1 h2 ⊢
      by_cases hlt2 : now2 < e
      · by_cases hlt1 : now1 < e
        · simp only [if_pos hlt1] at h1
          simp only [if_pos hlt2]
          exact h1
        · simp [hlt1] at h1
      · simp [hlt2] at h2

/-- The cache state reached after a `withCache` call whose fetch succeeded
with `v` (or that hit a truthy `v`) resolves `key` to `v` whenever it
resolves `key` at all. -/
theorem withCache_cache_lookup (st : CacheState) (now1 now2 : Nat) (key : String)
    (f : Except String JsVal) (ttl : Option Nat) (v : JsVal)
    (h1 : (withCache st now1 key f ttl).result = Except.ok v)
    (h2 : cacheLookup (withCache st now1 key f ttl).cache now2 key ≠ none) :
    cacheLookup (withCache st now1 key f ttl).cache now2 key = some v := by
  cases hl : cacheLookup st now1 key with
  | some w =>
      by_cases ht : jsTruthy w
      · rw [withCache_hit st now1 key f ttl w hl ht] at h1 h2 ⊢
        have hw : w = v := by simpa using h1
        exact cacheLookup_stable st now1 now2 key v (hw ▸ hl) h2
      · rw [withCache_falsy st now1 key f ttl w hl (by simpa using ht)] at h1 h2 ⊢
        cases f with
        | ok r =>
            simp only at h1 h2 ⊢
            have hr : r = v := by simpa using h1
            subst hr
            unfold cacheLookup at h2 ⊢
            rw [mapGet_mapSet_self] at h2 ⊢
            by_cases hlt : now2 < now1 + ttlValue ttl
            · simp [hlt]
            · simp [hlt] at h2
        | error e => simp at h1
  | none =>
      rw [withCache_none st now1 key f ttl hl] at h1 h2 ⊢
      cases f with
      | ok r =>
          simp only at h1 h2 ⊢
          have hr : r = v := by simpa using h1
          subst hr
          unfold cacheLookup at h2 ⊢
          rw [mapGet_mapSet_self] at h2 ⊢
          by_cases hlt : now2 < now1 + ttlValue ttl
          · simp [hlt]
          · simp [hlt] at h2
      | error e => simp at h1

/-! ## Claim theorems: cache -/

/-- C2 (counterexample): with an empty cache, a first `Get("k", fetch1)`
whose fetch returns the (falsy) value `0` succeeds and leaves a live entry
for `"k"`, yet a second `Get("k", fetch2)` within the TTL window and with no
intervening `Invalidate` invokes its fetch function again — the truthiness
gate `if (cached)` treats the cached `0` as a miss.  This refutes the claim
as stated ("for every possible cached value v"). -/
theorem withCache_falsy_refetch_cex :
    (withCache [] 0 "k" (Except.ok (JsVal.vNum 0)) (some 60)).result
        = Except.ok (JsVal.vNum 0) ∧
    cacheLookup (withCache [] 0 "k" (Except.ok (JsVal.vNum 0)) (some 60)).cache 10 "k"
        = some (JsVal.vNum 0) ∧
    (withCache (withCache [] 0 "k" (Except.ok (JsVal.vNum 0)) (some 60)).cache 10 "k"
        (Except.ok (JsVal.vNum 5)) (some 60)).fetchInvoked = true ∧
    (withCache (withCache [] 0 "k" (Except.ok (JsVal.vNum 0)) (some 60)).cache 10 "k"
        (Except.ok (JsVal.vNum 5)) (some 60)).result = Except.ok (JsVal.vNum 5) :=
  ⟨rfl, rfl, rfl, rfl⟩

/-- C2 (amended): if `Get(key, fetch1)` returns `v`, `v` is truthy under
JavaScript truthiness, and `key`'s entry has not expired at the time of the
second call (with no intervening `Invalidate`), then `Get(key, fetch2)` does
not invoke its fetch function and returns the same value `v`. -/
theorem withCache_second_get_cached (st : CacheState) (now1 now2 : Nat) (key : String)
    (f1 f2 : Except String JsVal) (ttl : Option Nat) (v : JsVal)
    (h1 : (withCache st now1 key f1 ttl).result = Except.ok v)
    (h2 : jsTruthy v = true)
    (h3 : cacheLookup (withCache st now1 key f1 ttl).cache now2 key ≠ none) :
    (withCache (withCache st now1 key f1 ttl).cache now2 key f2 ttl).fetchInvoked = false ∧
    (withCache (withCache st now1 key f1 ttl).cache now2 key f2 ttl).result = Except.ok v := by
  have hv : cacheLookup (withCache st now1 key f1 ttl).cache now2 key = some v :=
    withCache_cache_lookup st now1 now2 key f1 ttl v h1 h3
  rw [withCache_hit (withCache st now1 key f1 ttl).cache now2 key f2 ttl v hv h2]
  exact ⟨rfl, rfl⟩

/-- C2 (witness): a concrete truthy round trip — the conversation-list shape
(an array, truthy even when empty) is cached by the first call and returned
by the second without a fetch. -/
theorem withCache_second_get_cached_witness :
    (withCache [] 0 "c" (Except.ok (JsVal.vArr [])) (some 60)).result
        = Except.ok (JsVal.vArr []) ∧
    (withCache (withCache [] 0 "c" (Except.ok (JsVal.vArr [])) (some 60)).cache 10 "c"
        (Except.ok (JsVal.vNum 9)) (some 60)).fetchInvoked = false ∧
    (withCache (withCache [] 0 "c" (Except.ok (JsVal.vArr [])) (some 60)).cache 10 "c"
        (Except.ok (JsVal.vNum 9)) (some 60)).result = Except.ok (JsVal.vArr []) := by
  have h := withCache_second_get_cached [] 0 10 "c" (Except.ok (JsVal.vArr []))
    (Except.ok (JsVal.vNum 9)) (some 60) (JsVal.vArr []) rfl rfl
    (fun hn => Option.noConfusion hn)
  exact ⟨rfl, h.1, h.2⟩

/-- C3: if the fetch passed to `Get` fails, the cache state is exactly the
state before the call (no entry is written), and whenever the fetch was
actually invoked the error is what the caller receives. -/
theorem withCache_error_preserves_cache (st : CacheState) (now : Nat) (key : String)
    (e : String) (ttl : Option Nat) :
    (withCache st now key (Except.error e) ttl).cache = st ∧
    ((withCache st now key (Except.error e) ttl).fetchInvoked = true →
      (withCache st now key (Except.error e) ttl).result = Except.error e) := by
  cases hl : cacheLookup st now key with
  | some w =>
      by_cases ht : jsTruthy w
      · rw [withCache_hit st now key (Except.error e) ttl w hl ht]
        exact ⟨rfl, fun hinv => by simp at hinv⟩
      · rw [withCache_falsy st now key (Except.error e) ttl w hl (by simpa using ht)]
        exact ⟨rfl, fun _ => rfl⟩
  | none =>
      rw [withCache_none st now key (Except.error e) ttl hl]
      exact ⟨rfl, fun _ => rfl⟩

/-- C3 (witness): a failing fetch on an empty cache leaves the cache empty
and surfaces the error. -/
theorem withCache_error_preserves_cache_witness :
    (withCache [] 0 "k" (Except.error "db down") (some 60)).cache = [] ∧
    (withCache [] 0 "k" (Except.error "db down") (some 60)).result
        = Except.error "db down" := by
  have h := withCache_error_preserves_cache [] 0 "k" "db down" (some 60)
  exact ⟨h.1, h.2 rfl⟩

/-- C6: `Invalidate(substr)` keeps exactly the keys that do not contain
`substr` as a substring — every containing key is removed, every other key
survives — and a subsequent `Get` for a removed key invokes its fetch
function again (the lookup misses, so the fetch path runs). -/
theorem invalidateCache_substring_spec (st : CacheState) (pat k : String)
    (now : Nat) (f : Except String JsVal) (ttl : Option Nat) :
    (k ∈ (invalidateCache st pat).map Prod.fst ↔
      (k ∈ st.map Prod.fst ∧ jsIncludes k pat = false)) ∧
    (jsIncludes k pat = true →
      cacheLookup (invalidateCache st pat) now k = none ∧
      (withCache (invalidateCache st pat) now k f ttl).fetchInvoked = true) := by
  refine ⟨invalidateCache_keys st pat k, fun hinc => ?_⟩
  have hnk : k ∉ (invalidateCache st pat).map Prod.fst := by
    intro hk
    have := ((invalidateCache_keys st pat k).mp hk).2
    rw [hinc] at this
    exact Bool.noConfusion this
  have hnone : cacheLookup (invalidateCache st pat) now k = none := by
    unfold cacheLookup
    rw [mapGet_eq_none_of_not_mem _ _ hnk]
  refine ⟨hnone, ?_⟩
  rw [withCache_none (invalidateCache st pat) now k f ttl hnone]
  cases f with
  | ok r => rfl
  | error e => rfl

/-- C6 (witness): invalidating the substring `conversations:7` removes that
tenant's key (and a fresh `Get` fetches again) while an unrelated tenant's
key survives. -/
theorem invalidateCache_substring_spec_witness :
    jsIncludes "conversations:7" "conversations:7" = true ∧
    cacheLookup
        (invalidateCache
          [("conversations:7", (JsVal.vArr [], 300)), ("conversations:8", (JsVal.vArr [], 300))]
          "conversations:7") 10 "conversations:7" = none ∧
    (withCache
        (invalidateCache
          [("conversations:7", (JsVal.vArr [], 300)), ("conversations:8", (JsVal.vArr [], 300))]
          "conversations:7") 10 "conversations:7" (Except.ok (JsVal.vArr [])) (some 60)).fetchInvoked
      = true ∧
    ("conversations:8" ∈
      (invalidateCache
        [("conversations:7", (JsVal.vArr [], 300)), ("conversations:8", (JsVal.vArr [], 300))]
        "conversations:7").map Prod.fst) := by
  have hinc : jsIncludes "conversations:7" "conversations:7" = true :=
    jsIncludes_self "conversations:7"
  have h := (invalidateCache_substring_spec
    [("conversations:7", (JsVal.vArr [], 300)), ("conversations:8", (JsVal.vArr [], 300))]
    "conversations:7" "conversations:7" 10 (Except.ok (JsVal.vArr [])) (some 60)).2 hinc
  exact ⟨hinc, h.1, h.2, by decide⟩

/-- C10: invalidating with the empty string removes every entry (every key
contains the empty substring), acting as a global cache clear; the stats
accessor then reports zero keys. -/
theorem invalidateCache_empty_clears (st : CacheState) :
    invalidateCache st "" = [] ∧ getCacheStats (invalidateCache st "") = 0 := by
  have h : invalidateCache st "" = [] := by
    unfold invalidateCache
    induction st with
    | nil => rfl
    | cons p t ih => simp [List.filter, jsIncludes_empty_pat, ih]
  exact ⟨h, by rw [getCacheStats, h]; rfl⟩

/-! ## Claim theorems: route handlers and the cache -/

/-- C7 (counterexample): the conversation-update handler
(`PUT /api/conversations/:id`) performs no cache invalidation.  With tenant
7's conversation list cached, updating conversation 5 leaves the cache
byte-for-byte unchanged, the action trace contains no `invalidate`, and the
tenant's key is still present — refuting the claim that both handlers
invalidate the tenant's conversations cache entry. -/
theorem putConversation_no_invalidate_cex :
    (putConversationHandler [("conversations:7", (JsVal.vArr [], 300))] 5).1
        = [("conversations:7", (JsVal.vArr [], 300))] ∧
    ((putConversationHandler [("conversations:7", (JsVal.vArr [], 300))] 5).2.filter
        isInvalidateAction) = [] ∧
    (putConversationHandler [("conversations:7", (JsVal.vArr [], 300))] 5).1.map Prod.fst
        = ["conversations:7"] :=
  ⟨rfl, rfl, rfl⟩

/-- C7 (amended): the message-creation handler invalidates the posting
tenant's conversations cache entry after a successful write (the key is
gone afterwards and the trace records the invalidation), while the
conversation-update handler performs no cache operation at all: its cache
state passes through unchanged and its trace contains no invalidation, so
the cached conversation list can stay stale until the entry's TTL
expires. -/
theorem routes_invalidate_on_write (st : CacheState) (companyId conversationId : Int) :
    (conversationsKey companyId ∉
        (postMessagesHandler st companyId conversationId).1.map Prod.fst) ∧
    (ApiAction.invalidate (conversationsKey companyId)
        ∈ (postMessagesHandler st companyId conversationId).2) ∧
    (putConversationHandler st conversationId).1 = st ∧
    ((putConversationHandler st conversationId).2.filter isInvalidateAction) = [] := by
  refine ⟨?_, ?_, rfl, rfl⟩
  · intro hk
    have := ((invalidateCache_keys st ("conversations:" ++ toString companyId)
      ("conversations:" ++ toString companyId)).mp hk).2
    rw [jsIncludes_self] at this
    exact Bool.noConfusion this
  · simp [postMessagesHandler, conversationsKey]

/-! ## WebSocket manager lemmas -/

/-- `wid` occurs in no group of `gs`. -/
abbrev idFreeGroups (gs : List (String × List Nat)) (wid : Nat) : Prop :=
  ∀ q ∈ gs, wid ∉ q.2

/-- Every group binding containing `wid` is keyed `k` and holds `wid` at
most once.  This is what registration through `handleConnection` guarantees
for a connection whose `companyId` resolved to the tenant behind `k`. -/
abbrev OnlyKeyCnt (gs : List (String × List Nat)) (wid : Nat) (k : String) : Prop :=
  ∀ q ∈ gs, wid ∈ q.2 → q.1 = k ∧ q.2.count wid ≤ 1

theorem removeClient_eq_of_none (st : WSState) (wid : Nat) (c : ConnState)
    (hc : c.companyId = none) : removeClient st wid c = st := by
  unfold removeClient
  rw [hc]

theorem removeClient_eq_of_zero (st : WSState) (wid : Nat) (c : ConnState)
    (hc : c.companyId = some 0) : removeClient st wid c = st := by
  unfold removeClient
  rw [hc]
  simp

theorem removeClient_eq_of_absent (st : WSState) (wid : Nat) (c : ConnState) (n : Int)
    (hc : c.companyId = some n) (h0 : n ≠ 0)
    (hg : mapGet st.groups (companyKeyOfInt n) = none) : removeClient st wid c = st := by
  unfold removeClient
  rw [hc]
  simp only [if_neg h0, hg]

theorem removeClient_eq_delete (st : WSState) (wid : Nat) (c : ConnState) (n : Int)
    (ids : List Nat)
    (hc : c.companyId = some n) (h0 : n ≠ 0)
    (hg : mapGet st.groups (companyKeyOfInt n) = some ids)
    (he : ids.erase wid = []) :
    removeClient st wid c = { st with groups := mapDelete st.groups (companyKeyOfInt n) } := by
  unfold removeClient
  rw [hc]
  simp only [if_neg h0, hg, he]
  simp

theorem removeClient_eq_set (st : WSState) (wid : Nat) (c : ConnState) (n : Int)
    (ids : List Nat)
    (hc : c.companyId = some n) (h0 : n ≠ 0)
    (hg : mapGet st.groups (companyKeyOfInt n) = some ids)
    (he : ids.erase wid ≠ []) :
    removeClient st wid c =
      { st with groups := mapSet st.groups (companyKeyOfInt n) (ids.erase wid) } := by
  unfold removeClient
  rw [hc]
  simp only [if_neg h0, hg, if_neg he]

theorem removeClient_conns (st : WSState) (wid : Nat) (c : ConnState) :
    (removeClient st wid c).conns = st.conns := by
  cases hc : c.companyId with
  | none => rw [removeClient_eq_of_none st wid c hc]
  | some n =>
      by_cases h0 : n = 0
      · rw [h0] at hc
        rw [removeClient_eq_of_zero st wid c hc]
      · cases hg : mapGet st.groups (companyKeyOfInt n) with
        | none => rw [removeClient_eq_of_absent st wid c n hc h0 hg]
        | some ids =>
            by_cases he : ids.erase wid = []
            · rw [removeClient_eq_delete st wid c n ids hc h0 hg he]
            · rw [removeClient_eq_set st wid c n ids hc h0 hg he]

theorem wsTerminate_groups (st : WSState) (wid : Nat) :
    (wsTerminate st wid).groups = st.groups := rfl

theorem setAlivePending_groups (st : WSState) (wid : Nat) :
    (setAlivePending st wid).groups = st.groups := rfl

theorem setAlivePending_keys (st : WSState) (wid : Nat) :
    (setAlivePending st wid).conns.map Prod.fst = st.conns.map Prod.fst := by
  unfold setAlivePending
  simp only [List.map_map]
  apply List.map_congr_left
  intro q _
  by_cases hq : q.1 = wid
  · simp [Function.comp, hq]
  · simp [Function.comp, hq]

theorem wsErrorEvent_conns (st : WSState) (wid : Nat) :
    (wsErrorEvent st wid).conns = st.conns := by
  unfold wsErrorEvent
  cases connGet st wid with
  | none => rfl
  | some c => exact removeClient_conns st wid c

theorem erase_eq_nil_cases (l : List Nat) (a : Nat) (h : l.erase a = []) :
    l = [] ∨ l = [a] := by
  cases l with
  | nil => exact Or.inl rfl
  | cons b t =>
      rw [List.erase_cons] at h
      by_cases hb : b = a
      · simp only [hb, beq_self_eq_true, if_pos] at h
        exact Or.inr (by rw [hb, h])
      · simp [hb] at h

theorem count_erase_le (l : List Nat) (a b : Nat) :
    (l.erase a).count b ≤ l.count b := by
  by_cases hab : b = a
  · rw [hab, List.count_erase_self]
    omega
  · rw [List.count_erase_of_ne hab]

theorem idFree_removeClient (st : WSState) (wid : Nat) (c : ConnState) (x : Nat)
    (h : idFreeGroups st.groups x) : idFreeGroups (removeClient st wid c).groups x := by
  cases hc : c.companyId with
  | none => rw [removeClient_eq_of_none st wid c hc]; exact h
  | some n =>
      by_cases h0 : n = 0
      · rw [h0] at hc
        rw [removeClient_eq_of_zero st wid c hc]; exact h
      · cases hg : mapGet st.groups (companyKeyOfInt n) with
        | none => rw [removeClient_eq_of_absent st wid c n hc h0 hg]; exact h
        | some ids =>
            by_cases he : ids.erase wid = []
            · rw [removeClient_eq_delete st wid c n ids hc h0 hg he]
              intro q hq
              exact h q ((mem_mapDelete st.groups (companyKeyOfInt n) q).mp hq).1
            · rw [removeClient_eq_set st wid c n ids hc h0 hg he]
              intro q hq
              rcases mem_mapSet_weak st.groups (companyKeyOfInt n) (ids.erase wid) q hq with
                heq | hmem
              · rw [heq]
                intro hx
                exact h (companyKeyOfInt n, ids) (mapGet_mem _ _ _ hg)
                  (List.mem_of_mem_erase hx)
              · exact h q hmem

theorem keysNodup_removeClient (st : WSState) (wid : Nat) (c : ConnState)
    (h : (st.groups.map Prod.fst).Nodup) :
    ((removeClient st wid c).groups.map Prod.fst).Nodup := by
  cases hc : c.companyId with
  | none => rw [removeClient_eq_of_none st wid c hc]; exact h
  | some n =>
      by_cases h0 : n = 0
      · rw [h0] at hc
        rw [removeClient_eq_of_zero st wid c hc]; exact h
      · cases hg : mapGet st.groups (companyKeyOfInt n) with
        | none => rw [removeClient_eq_of_absent st wid c n hc h0 hg]; exact h
        | some ids =>
            by_cases he : ids.erase wid = []
            · rw [removeClient_eq_delete st wid c n ids hc h0 hg he]
              exact (mapDelete_keys_sublist st.groups (companyKeyOfInt n)).nodup h
            · rw [removeClient_eq_set st wid c n ids hc h0 hg he]
              rw [mapSet_keys_of_get st.groups (companyKeyOfInt n) (ids.erase wid) ids hg]
              exact h

theorem onlyKeyCnt_removeClient (st : WSState) (wid : Nat) (c : ConnState)
    (x : Nat) (k : String) (h : OnlyKeyCnt st.groups x k) :
    OnlyKeyCnt (removeClient st wid c).groups x k := by
  cases hc : c.companyId with
  | none => rw [removeClient_eq_of_none st wid c hc]; exact h
  | some n =>
      by_cases h0 : n = 0
      · rw [h0] at hc
        rw [removeClient_eq_of_zero st wid c hc]; exact h
      · cases hg : mapGet st.groups (companyKeyOfInt n) with
        | none => rw [removeClient_eq_of_absent st wid c n hc h0 hg]; exact h
        | some ids =>
            by_cases he : ids.erase wid = []
            · rw [removeClient_eq_delete st wid c n ids hc h0 hg he]
              intro q hq hx
              exact h q ((mem_mapDelete st.groups (companyKeyOfInt n) q).mp hq).1 hx
            · rw [removeClient_eq_set st wid c n ids hc h0 hg he]
              intro q hq hx
              rcases mem_mapSet_weak st.groups (companyKeyOfInt n) (ids.erase wid) q hq with
                heq | hmem
              · have hxids : x ∈ ids := by
                  rw [heq] at hx
                  exact List.mem_of_mem_erase hx
                have hbase := h (companyKeyOfInt n, ids) (mapGet_mem _ _ _ hg) hxids
                refine ⟨by rw [heq]; exact hbase.1, ?_⟩
                rw [heq]
                exact le_trans (count_erase_le ids wid x) hbase.2
              · exact h q hmem hx

/-- At its own heartbeat/error step, `removeClient` really empties the
connection out of the registry, provided the registry keys are unique and
the connection occurs only in its own tenant's group, at most once. -/
theorem removeClient_removes (st : WSState) (wid : Nat) (c : ConnState) (n : Int)
    (hc : c.companyId = some n) (h0 : n ≠ 0)
    (hnd : (st.groups.map Prod.fst).Nodup)
    (hok : OnlyKeyCnt st.groups wid (companyKeyOfInt n)) :
    idFreeGroups (removeClient st wid c).groups wid := by
  cases hg : mapGet st.groups (companyKeyOfInt n) with
  | none =>
      rw [removeClient_eq_of_absent st wid c n hc h0 hg]
      intro q hq hx
      have hk := (hok q hq hx).1
      have : (companyKeyOfInt n, q.2) ∈ st.groups := by
        have : q = (companyKeyOfInt n, q.2) := by
          rw [← hk]
        rw [← this]
        exact hq
      exact mapGet_none_not_mem st.groups (companyKeyOfInt n) hg q.2 this
  | some ids =>
      have hwide : wid ∉ ids.erase wid := by
        by_cases hw : wid ∈ ids
        · have hc1 : ids.count wid ≤ 1 := (hok _ (mapGet_mem _ _ _ hg) hw).2
          intro hmem
          have hpos : 0 < (ids.erase wid).count wid := List.count_pos_iff.mpr hmem
          have herase := List.count_erase_self wid ids
          omega
        · intro hmem
          exact hw (List.mem_of_mem_erase hmem)
      by_cases he : ids.erase wid = []
      · rw [removeClient_eq_delete st wid c n ids hc h0 hg he]
        intro q hq hx
        rcases (mem_mapDelete st.groups (companyKeyOfInt n) q).mp hq with ⟨hmem, hne⟩
        exact hne (hok q hmem hx).1
      · rw [removeClient_eq_set st wid c n ids hc h0 hg he]
        intro q hq hx
        have hndq : (((mapSet st.groups (companyKeyOfInt n) (ids.erase wid)).map
            Prod.fst)).Nodup := by
          rw [mapSet_keys_of_get st.groups (companyKeyOfInt n) (ids.erase wid) ids hg]
          exact hnd
        rcases mem_mapSet_weak st.groups (companyKeyOfInt n) (ids.erase wid) q hq with
          heq | hmem
        · rw [heq] at hx
          exact hwide hx
        · have hk := (hok q hmem hx).1
          have hmem2 : (companyKeyOfInt n, ids.erase wid) ∈
              mapSet st.groups (companyKeyOfInt n) (ids.erase wid) :=
            mapGet_mem _ _ _ (mapGet_mapSet_self st.groups (companyKeyOfInt n) (ids.erase wid))
          have hq2 : (companyKeyOfInt n, q.2) ∈
              mapSet st.groups (companyKeyOfInt n) (ids.erase wid) := by
            have : q = (companyKeyOfInt n, q.2) := by rw [← hk]
            rw [← this]
            exact hq
          have := keys_nodup_unique _ (companyKeyOfInt n) q.2 (ids.erase wid) hndq hq2 hmem2
          rw [this] at hx
          exact hwide hx

/-! ## Heartbeat sweep lemmas -/

theorem sweepStep_conns_keys_subset (acc : WSState × List Nat) (p : Nat × ConnState) (x : Nat)
    (h : x ∉ acc.1.conns.map Prod.fst) : x ∉ (sweepStep acc p).1.conns.map Prod.fst := by
  unfold sweepStep
  by_cases hd : p.2.isAlive = some false
  · simp only [if_pos hd]
    intro hx
    rcases List.mem_map.mp hx with ⟨q, hq, hfst⟩
    unfold wsTerminate at hq
    simp only [removeClient_conns] at hq
    rcases List.mem_filter.mp hq with ⟨hq2, _⟩
    exact h (hfst ▸ List.mem_map_of_mem Prod.fst hq2)
  · simp only [if_neg hd]
    rw [setAlivePending_keys]
    exact h

theorem sweepFold_no_new_conn (l : List (Nat × ConnState)) (acc : WSState × List Nat) (x : Nat)
    (h : x ∉ acc.1.conns.map Prod.fst) :
    x ∉ (l.foldl sweepStep acc).1.conns.map Prod.fst := by
  induction l generalizing acc with
  | nil => exact h
  | cons p t ih => exact ih (sweepStep acc p) (sweepStep_conns_keys_subset acc p x h)

theorem sweepFold_dead_removed (l : List (Nat × ConnState)) (acc : WSState × List Nat)
    (wid : Nat) (c : ConnState)
    (hm : (wid, c) ∈ l) (hd : c.isAlive = some false) :
    wid ∉ (l.foldl sweepStep acc).1.conns.map Prod.fst := by
  induction l generalizing acc with
  | nil => simp at hm
  | cons p t ih =>
      by_cases hp : p = (wid, c)
      · rw [List.foldl_cons]
        apply sweepFold_no_new_conn
        rw [hp]
        unfold sweepStep
        simp only [if_pos hd]
        intro hx
        rcases List.mem_map.mp hx with ⟨q, hq, hfst⟩
        unfold wsTerminate at hq
        rcases List.mem_filter.mp hq with ⟨_, hne⟩
        exact (of_decide_eq_true hne) hfst
      · rcases List.mem_cons.mp hm with he | hm2
        · exact absurd he.symm hp
        · exact ih (sweepStep acc p) hm2

theorem sweepStep_conn_stable (acc : WSState × List Nat) (p : Nat × ConnState)
    (wid : Nat) (c : ConnState) (hne : p.1 ≠ wid) (hm : (wid, c) ∈ acc.1.conns) :
    (wid, c) ∈ (sweepStep acc p).1.conns := by
  unfold sweepStep
  by_cases hd : p.2.isAlive = some false
  · simp only [if_pos hd]
    unfold wsTerminate
    simp only [removeClient_conns]
    exact List.mem_filter.mpr ⟨hm, decide_eq_true (fun he : wid = p.1 => hne he.symm)⟩
  · simp only [if_neg hd]
    unfold setAlivePending
    have hwne : ¬wid = p.1 := fun he => hne he.symm
    refine List.mem_map.mpr ⟨(wid, c), hm, ?_⟩
    simp [hwne]

theorem sweepFold_conn_stable (l : List (Nat × ConnState)) (acc : WSState × List Nat)
    (wid : Nat) (c : ConnState)
    (hnot : wid ∉ l.map Prod.fst) (hm : (wid, c) ∈ acc.1.conns) :
    (wid, c) ∈ (l.foldl sweepStep acc).1.conns := by
  induction l generalizing acc with
  | nil => exact hm
  | cons p t ih =>
      have hne : p.1 ≠ wid := fun he => hnot (by simp [he])
      have hnott : wid ∉ t.map Prod.fst := fun ht =>
        hnot (by rw [List.map_cons]; exact List.mem_cons_of_mem _ ht)
      exact ih (sweepStep acc p) hnott
        (sweepStep_conn_stable acc p wid c hne hm)

theorem sweepFold_ping_stable (l : List (Nat × ConnState)) (acc : WSState × List Nat)
    (x : Nat) (h : x ∈ acc.2) : x ∈ (l.foldl sweepStep acc).2 := by
  induction l generalizing acc with
  | nil => exact h
  | cons p t ih =>
      apply ih
      unfold sweepStep
      by_cases hd : p.2.isAlive = some false
      · simpa [if_pos hd] using h
      · simp only [if_neg hd]
        exact List.mem_append_left _ h

theorem sweepFold_alive_marked (l : List (Nat × ConnState)) (acc : WSState × List Nat)
    (wid : Nat) (c : ConnState)
    (hnd : (l.map Prod.fst).Nodup) (hm : (wid, c) ∈ l) (hmc : (wid, c) ∈ acc.1.conns)
    (ha : c.isAlive ≠ some false) :
    (wid, markPending c) ∈ (l.foldl sweepStep acc).1.conns ∧
    wid ∈ (l.foldl sweepStep acc).2 := by
  induction l generalizing acc with
  | nil => simp at hm
  | cons p t ih =>
      simp only [List.map_cons, List.nodup_cons] at hnd
      by_cases hp : p = (wid, c)
      · rw [List.foldl_cons]
        have hstep : sweepStep acc p =
            (setAlivePending acc.1 wid, acc.2 ++ [wid]) := by
          rw [hp]
          unfold sweepStep
          simp [ha]
        rw [hstep]
        have hmark : (wid, markPending c) ∈ (setAlivePending acc.1 wid).conns := by
          unfold setAlivePending
          refine List.mem_map.mpr ⟨(wid, c), hmc, ?_⟩
          simp
        have hnott : wid ∉ t.map Prod.fst := by
          have : p.1 = wid := by rw [hp]
          rw [← this]
          exact hnd.1
        exact ⟨sweepFold_conn_stable t _ wid (markPending c) hnott hmark,
          sweepFold_ping_stable t _ wid (List.mem_append_right _ (List.mem_singleton.mpr rfl))⟩
      · rcases List.mem_cons.mp hm with he | hm2
        · exact absurd he.symm hp
        · have hne : p.1 ≠ wid := by
            intro he
            exact hnd.1 (he ▸ List.mem_map_of_mem Prod.fst hm2)
          exact ih (sweepStep acc p) hnd.2 hm2
            (sweepStep_conn_stable acc p wid c hne hmc)

theorem sweepStep_groups_idFree (acc : WSState × List Nat) (p : Nat × ConnState) (x : Nat)
    (h : idFreeGroups acc.1.groups x) : idFreeGroups (sweepStep acc p).1.groups x := by
  unfold sweepStep
  by_cases hd : p.2.isAlive = some false
  · simp only [if_pos hd]
    rw [wsTerminate_groups]
    exact idFree_removeClient acc.1 p.1 p.2 x h
  · simp only [if_neg hd]
    rw [setAlivePending_groups]
    exact h

theorem sweepFold_groups_idFree (l : List (Nat × ConnState)) (acc : WSState × List Nat)
    (x : Nat) (h : idFreeGroups acc.1.groups x) :
    idFreeGroups (l.foldl sweepStep acc).1.groups x := by
  induction l generalizing acc with
  | nil => exact h
  | cons p t ih => exact ih (sweepStep acc p) (sweepStep_groups_idFree acc p x h)

theorem sweepStep_groups_nodup (acc : WSState × List Nat) (p : Nat × ConnState)
    (h : (acc.1.groups.map Prod.fst).Nodup) :
    ((sweepStep acc p).1.groups.map Prod.fst).Nodup := by
  unfold sweepStep
  by_cases hd : p.2.isAlive = some false
  · simp only [if_pos hd]
    rw [wsTerminate_groups]
    exact keysNodup_removeClient acc.1 p.1 p.2 h
  · simp only [if_neg hd]
    rw [setAlivePending_groups]
    exact h

theorem sweepStep_groups_onlyKeyCnt (acc : WSState × List Nat) (p : Nat × ConnState)
    (x : Nat) (k : String) (h : OnlyKeyCnt acc.1.groups x k) :
    OnlyKeyCnt (sweepStep acc p).1.groups x k := by
  unfold sweepStep
  by_cases hd : p.2.isAlive = some false
  · simp only [if_pos hd]
    rw [wsTerminate_groups]
    exact onlyKeyCnt_removeClient acc.1 p.1 p.2 x k h
  · simp only [if_neg hd]
    rw [setAlivePending_groups]
    exact h

theorem sweepFold_dead_group_removed (l : List (Nat × ConnState)) (acc : WSState × List Nat)
    (wid : Nat) (c : ConnState) (n : Int)
    (hm : (wid, c) ∈ l) (hd : c.isAlive = some false)
    (hc : c.companyId = some n) (h0 : n ≠ 0)
    (hnd : (acc.1.groups.map Prod.fst).Nodup)
    (hok : OnlyKeyCnt acc.1.groups wid (companyKeyOfInt n)) :
    idFreeGroups (l.foldl sweepStep acc).1.groups wid := by
  induction l generalizing acc with
  | nil => simp at hm
  | cons p t ih =>
      by_cases hp : p = (wid, c)
      · rw [List.foldl_cons]
        apply sweepFold_groups_idFree
        rw [hp]
        unfold sweepStep
        simp only [if_pos hd]
        rw [wsTerminate_groups]
        exact removeClient_removes acc.1 wid c n hc h0 hnd hok
      · rcases List.mem_cons.mp hm with he | hm2
        · exact absurd he.symm hp
        · exact ih (sweepStep acc p) hm2 (sweepStep_groups_nodup acc p hnd)
            (sweepStep_groups_onlyKeyCnt acc p wid (companyKeyOfInt n) hok)

/-! ## Claim theorems: heartbeat sweep -/

/-- C5 (counterexample): the claim fails for a connection registered under a
`null` company id.  Starting from the empty manager, a client whose user has
`companyId = null` connects (it is registered in group `company_null`, with
the socket field `companyId` coerced to `undefined`).  The first sweep marks
it pending; the second sweep finds `isAlive === false`, terminates it — but
`removeClient` is a no-op because `if (ws.companyId)` is falsy, so the dead
connection is never removed from its tenant group: after the sweep the
socket set is empty while `company_null` still lists the connection. -/
theorem heartbeat_null_company_cex :
    ((heartbeatSweep (heartbeatSweep (handleConnection ⟨[], []⟩ 0 ⟨"u1", none⟩)).1).1).conns
        = [] ∧
    ((heartbeatSweep (heartbeatSweep (handleConnection ⟨[], []⟩ 0 ⟨"u1", none⟩)).1).1).groups
        = [("company_null", [0])] :=
  ⟨rfl, rfl⟩

/-- C5 (amended): at each firing of the 30-second heartbeat interval, every
connection whose `isAlive` is still `false` (it did not answer the probe
since the previous sweep) is terminated — removed from the server's socket
set by the end of the sweep — and, provided its `companyId` field is a
nonzero number `n` and it is registered (at most once) under tenant `n`'s
key only, it is also removed from its tenant group.  (A connection
registered under a `null` or `0` company id is terminated but stays listed
in its group, see the counterexample.)  Every other connection is marked
pending (`isAlive` set to `false`) and is sent a ping. -/
theorem setupHeartbeat_sweep (st : WSState)
    (hnd : (st.conns.map Prod.fst).Nodup) :
    ∀ wid c, (wid, c) ∈ st.conns →
      ((c.isAlive = some false →
          wid ∉ ((heartbeatSweep st).1.conns.map Prod.fst) ∧
          (∀ n, c.companyId = some n → n ≠ 0 →
            (st.groups.map Prod.fst).Nodup →
            OnlyKeyCnt st.groups wid (companyKeyOfInt n) →
            idFreeGroups (heartbeatSweep st).1.groups wid)) ∧
       (c.isAlive ≠ some false →
          (wid, markPending c) ∈ (heartbeatSweep st).1.conns ∧
          wid ∈ (heartbeatSweep st).2)) := by
  intro wid c hm
  unfold heartbeatSweep
  constructor
  · intro hd
    constructor
    · exact sweepFold_dead_removed st.conns (st, []) wid c hm hd
    · intro n hc h0 hgnd hok
      exact sweepFold_dead_group_removed st.conns (st, []) wid c n hm hd hc h0 hgnd hok
  · intro ha
    exact sweepFold_alive_marked st.conns (st, []) wid c hnd hm hm ha

def cDeadW : ConnState := ⟨"a", some 4, RS.OPEN, some false⟩

def cLiveW : ConnState := ⟨"b", some 5, RS.OPEN, some true⟩

def stHeartbeatW : WSState :=
  ⟨[(1, cDeadW), (2, cLiveW)], [("company_4", [1]), ("company_5", [2])]⟩

/-- C5 (witness): on a two-tenant state, the sweep terminates and deregisters
the silent connection and marks/pings the live one. -/
theorem setupHeartbeat_sweep_witness :
    (stHeartbeatW.conns.map Prod.fst).Nodup ∧
    1 ∉ ((heartbeatSweep stHeartbeatW).1.conns.map Prod.fst) ∧
    idFreeGroups (heartbeatSweep stHeartbeatW).1.groups 1 ∧
    (2, markPending cLiveW) ∈ (heartbeatSweep stHeartbeatW).1.conns ∧
    2 ∈ (heartbeatSweep stHeartbeatW).2 := by
  have h1 := (setupHeartbeat_sweep stHeartbeatW (by decide) 1 cDeadW (by decide)).1 rfl
  have h2 := (setupHeartbeat_sweep stHeartbeatW (by decide) 2 cLiveW (by decide)).2 (by decide)
  exact ⟨by decide, h1.1, h1.2 4 rfl (by decide) (by decide) (by decide), h2.1, h2.2⟩

/-! ## The registry invariant -/

/-- Total number of occurrences of connection `x` across all tenant
groups. -/
def groupsCount (gs : List (String × List Nat)) (x : Nat) : Nat :=
  (gs.map (fun q => q.2.count x)).sum

/-- The registry invariant of the claim: no tenant maps to an empty
collection, and every connection occurs in at most one group, at most once
in it (its total multiplicity over the registry is at most 1). -/
abbrev GroupsInv (gs : List (String × List Nat)) : Prop :=
  (∀ q ∈ gs, q.2 ≠ []) ∧ (∀ q ∈ gs, ∀ x ∈ q.2, groupsCount gs x ≤ 1)

theorem groupsCount_cons (q : String × List Nat) (t : List (String × List Nat)) (x : Nat) :
    groupsCount (q :: t) x = q.2.count x + groupsCount t x := by
  simp [groupsCount]

theorem groupsCount_append (g1 g2 : List (String × List Nat)) (x : Nat) :
    groupsCount (g1 ++ g2) x = groupsCount g1 x + groupsCount g2 x := by
  simp [groupsCount]

theorem groupsCount_pos_of_mem (gs : List (String × List Nat)) (q : String × List Nat)
    (x : Nat) (hq : q ∈ gs) (hx : x ∈ q.2) : 0 < groupsCount gs x := by
  induction gs with
  | nil => simp at hq
  | cons p t ih =>
      rw [groupsCount_cons]
      rcases List.mem_cons.mp hq with he | hm
      · have : 0 < p.2.count x := by
          rw [← he]
          exact List.count_pos_iff.mpr hx
        omega
      · have := ih hm
        omega

theorem groupsCount_mapSet (gs : List (String × List Nat)) (k : String)
    (ids v : List Nat) (x : Nat) (hg : mapGet gs k = some ids) :
    groupsCount (mapSet gs k v) x + ids.count x = groupsCount gs x + v.count x := by
  induction gs with
  | nil => simp [mapGet] at hg
  | cons p t ih =>
      by_cases hp : p.1 = k
      · simp only [mapGet, if_pos hp] at hg
        have hids : p.2 = ids := by injection hg
        simp only [mapSet, if_pos hp]
        simp only [groupsCount_cons, hids]
        omega
      · simp only [mapGet, if_neg hp] at hg
        simp only [mapSet, if_neg hp]
        rw [groupsCount_cons, groupsCount_cons]
        have := ih hg
        omega

theorem groupsCount_mapDelete_le (gs : List (String × List Nat)) (k : String) (x : Nat) :
    groupsCount (mapDelete gs k) x ≤ groupsCount gs x := by
  induction gs with
  | nil => simp [mapDelete]
  | cons p t ih =>
      by_cases hp : p.1 = k
      · simp only [mapDelete, if_pos hp]
        rw [groupsCount_cons]
        omega
      · simp only [mapDelete, if_neg hp]
        rw [groupsCount_cons, groupsCount_cons]
        omega

theorem groupsInv_removeClient (st : WSState) (wid : Nat) (c : ConnState)
    (h : GroupsInv st.groups) : GroupsInv (removeClient st wid c).groups := by
  cases hc : c.companyId with
  | none => rw [removeClient_eq_of_none st wid c hc]; exact h
  | some n =>
      by_cases h0 : n = 0
      · rw [h0] at hc
        rw [removeClient_eq_of_zero st wid c hc]; exact h
      · cases hg : mapGet st.groups (companyKeyOfInt n) with
        | none => rw [removeClient_eq_of_absent st wid c n hc h0 hg]; exact h
        | some ids =>
            by_cases he : ids.erase wid = []
            · rw [removeClient_eq_delete st wid c n ids hc h0 hg he]
              constructor
              · intro q hq
                exact h.1 q ((mem_mapDelete st.groups (companyKeyOfInt n) q).mp hq).1
              · intro q hq x hx
                have hmem := ((mem_mapDelete st.groups (companyKeyOfInt n) q).mp hq).1
                exact le_trans (groupsCount_mapDelete_le st.groups (companyKeyOfInt n) x)
                  (h.2 q hmem x hx)
            · rw [removeClient_eq_set st wid c n ids hc h0 hg he]
              dsimp only
              constructor
              · intro q hq
                rcases mem_mapSet_weak st.groups (companyKeyOfInt n) (ids.erase wid) q hq with
                  heq | hmem
                · rw [heq]
                  exact he
                · exact h.1 q hmem
              · intro q hq x hx
                have hle : groupsCount (mapSet st.groups (companyKeyOfInt n) (ids.erase wid)) x ≤
                    groupsCount st.groups x := by
                  have heq := groupsCount_mapSet st.groups (companyKeyOfInt n) ids
                    (ids.erase wid) x hg
                  have hcle := count_erase_le ids wid x
                  omega
                have hbase : groupsCount st.groups x ≤ 1 := by
                  rcases mem_mapSet_weak st.groups (companyKeyOfInt n) (ids.erase wid) q hq with
                    heq | hmem
                  · have hxids : x ∈ ids := by
                      rw [heq] at hx
                      exact List.mem_of_mem_erase hx
                    exact h.2 (companyKeyOfInt n, ids) (mapGet_mem _ _ _ hg) x hxids
                  · exact h.2 q hmem x hx
                omega

theorem groupsInv_handleConnection (st : WSState) (wid : Nat) (user : UserRec)
    (h : GroupsInv st.groups) (hfresh : groupsCount st.groups wid = 0) :
    GroupsInv (handleConnection st wid user).groups := by
  unfold handleConnection
  dsimp only
  cases hg : mapGet st.groups ("company_" ++ jsShowOptInt user.companyId) with
  | some ids =>
      dsimp only
      constructor
      · intro q hq
        rcases mem_mapSet_weak st.groups _ (ids ++ [wid]) q hq with heq | hmem
        · rw [heq]
          simp
        · exact h.1 q hmem
      · intro q hq x hx
        have heqn := groupsCount_mapSet st.groups ("company_" ++ jsShowOptInt user.companyId)
          ids (ids ++ [wid]) x hg
        rw [List.count_append] at heqn
        by_cases hxw : x = wid
        · subst hxw
          have h1 : List.count x [x] = 1 := by simp
          omega
        · have h0 : List.count x [wid] = 0 := by simp [hxw]
          have hbase : groupsCount st.groups x ≤ 1 := by
            rcases mem_mapSet_weak st.groups _ (ids ++ [wid]) q hq with heq | hmem
            · have hxids : x ∈ ids := by
                rw [heq] at hx
                rcases List.mem_append.mp hx with h1 | h1
                · exact h1
                · exact absurd (List.mem_singleton.mp h1) hxw
              exact h.2 (_, ids) (mapGet_mem _ _ _ hg) x hxids
            · exact h.2 q hmem x hx
          omega
  | none =>
      dsimp only
      rw [mapSet_absent st.groups _ [wid] hg]
      constructor
      · intro q hq
        rcases List.mem_append.mp hq with hmem | hone
        · exact h.1 q hmem
        · rw [List.mem_singleton.mp hone]
          simp
      · intro q hq x hx
        rw [groupsCount_append, groupsCount_cons]
        dsimp only
        have hnil : groupsCount ([] : List (String × List Nat)) x = 0 := rfl
        rw [hnil]
        by_cases hxw : x = wid
        · subst hxw
          rw [hfresh]
          simp
        · have h0 : List.count x [wid] = 0 := by simp [hxw]
          have hbase : groupsCount st.groups x ≤ 1 := by
            rcases List.mem_append.mp hq with hmem | hone
            · exact h.2 q hmem x hx
            · rw [List.mem_singleton.mp hone] at hx
              exact absurd (List.mem_singleton.mp hx) hxw
          omega

theorem groupsInv_sweepStep (acc : WSState × List Nat) (p : Nat × ConnState)
    (h : GroupsInv acc.1.groups) : GroupsInv (sweepStep acc p).1.groups := by
  unfold sweepStep
  by_cases hd : p.2.isAlive = some false
  · simp only [if_pos hd]
    rw [wsTerminate_groups]
    exact groupsInv_removeClient acc.1 p.1 p.2 h
  · simp only [if_neg hd]
    rw [setAlivePending_groups]
    exact h

theorem groupsInv_sweepFold (l : List (Nat × ConnState)) (acc : WSState × List Nat)
    (h : GroupsInv acc.1.groups) : GroupsInv (l.foldl sweepStep acc).1.groups := by
  induction l generalizing acc with
  | nil => exact h
  | cons p t ih => exact ih (sweepStep acc p) (groupsInv_sweepStep acc p h)

/-! ## Claim theorems: registry invariant -/

/-- C9: the registry invariant — every connection occurs in at most one
tenant group, at most once inside it, and no tenant maps to an empty
collection — is preserved by `handleConnection` (for a fresh socket not yet
registered anywhere), by `removeClient` (arbitrary arguments), and by a full
heartbeat sweep.  `removeClient` deletes a group as soon as it empties, so
an empty collection is never left behind. -/
theorem registry_invariant_preserved (st : WSState) (h : GroupsInv st.groups) :
    (∀ wid user, groupsCount st.groups wid = 0 →
        GroupsInv (handleConnection st wid user).groups) ∧
    (∀ wid c, GroupsInv (removeClient st wid c).groups) ∧
    GroupsInv (heartbeatSweep st).1.groups := by
  refine ⟨fun wid user hfresh => groupsInv_handleConnection st wid user h hfresh,
    fun wid c => groupsInv_removeClient st wid c h, ?_⟩
  unfold heartbeatSweep
  exact groupsInv_sweepFold st.conns (st, []) h

def cInvW : ConnState := ⟨"u", some 2, RS.OPEN, some true⟩

def stInvW : WSState := ⟨[(1, cInvW)], [("company_2", [1])]⟩

/-- C9 (witness): the invariant holds on a concrete registry and survives a
fresh accept, a remove, and a sweep. -/
theorem registry_invariant_preserved_witness :
    GroupsInv stInvW.groups ∧
    groupsCount stInvW.groups 9 = 0 ∧
    GroupsInv (handleConnection stInvW 9 ⟨"v", some 3⟩).groups ∧
    GroupsInv (removeClient stInvW 1 cInvW).groups ∧
    GroupsInv (heartbeatSweep stInvW).1.groups := by
  have h := registry_invariant_preserved stInvW (by decide)
  exact ⟨by decide, by decide, h.1 9 ⟨"v", some 3⟩ (by decide), h.2.1 1 cInvW, h.2.2⟩

/-! ## Claim theorems: Remove idempotence -/

/-- The group key `removeClient` would use for this connection (empty when
the `companyId` field is falsy and the function is a no-op). -/
def connGroupKey (c : ConnState) : String :=
  match c.companyId with
  | some n => companyKeyOfInt n
  | none => ""

/-- C8: `Remove` is idempotent and local.  For any registry in which the
connection occurs at most once in its own group (which registration
guarantees, see the invariant claim), removing it twice equals removing it
once; the socket set is untouched; and the group membership of every other
connection, in every tenant's group, is unchanged.  Every path of
`removeClient` is a guarded map/array operation, so the call cannot raise —
in the embedding it is a total function. -/
theorem removeClient_idempotent (st : WSState) (wid : Nat) (c : ConnState)
    (h : ((mapGet st.groups (connGroupKey c)).getD []).count wid ≤ 1) :
    removeClient (removeClient st wid c) wid c = removeClient st wid c ∧
    (removeClient st wid c).conns = st.conns ∧
    (∀ k x, x ≠ wid →
      (x ∈ (mapGet (removeClient st wid c).groups k).getD [] ↔
       x ∈ (mapGet st.groups k).getD [])) := by
  refine ⟨?_, removeClient_conns st wid c, ?_⟩
  · cases hc : c.companyId with
    | none =>
        rw [removeClient_eq_of_none st wid c hc, removeClient_eq_of_none st wid c hc]
    | some n =>
        by_cases h0 : n = 0
        · rw [h0] at hc
          rw [removeClient_eq_of_zero st wid c hc, removeClient_eq_of_zero st wid c hc]
        · cases hg : mapGet st.groups (companyKeyOfInt n) with
          | none =>
              rw [removeClient_eq_of_absent st wid c n hc h0 hg,
                removeClient_eq_of_absent st wid c n hc h0 hg]
          | some ids =>
              have hcnt : ids.count wid ≤ 1 := by
                have : connGroupKey c = companyKeyOfInt n := by
                  unfold connGroupKey
                  rw [hc]
                rw [this, hg] at h
                exact h
              by_cases he : ids.erase wid = []
              · rw [removeClient_eq_delete st wid c n ids hc h0 hg he]
                apply removeClient_eq_of_absent _ wid c n hc h0
                exact mapGet_mapDelete_self st.groups (companyKeyOfInt n)
              · rw [removeClient_eq_set st wid c n ids hc h0 hg he]
                have hg2 : mapGet (mapSet st.groups (companyKeyOfInt n) (ids.erase wid))
                    (companyKeyOfInt n) = some (ids.erase wid) :=
                  mapGet_mapSet_self st.groups (companyKeyOfInt n) (ids.erase wid)
                have hnomem : wid ∉ ids.erase wid := by
                  by_cases hw : wid ∈ ids
                  · intro hmem
                    have hpos : 0 < (ids.erase wid).count wid := List.count_pos_iff.mpr hmem
                    have herase := List.count_erase_self wid ids
                    omega
                  · intro hmem
                    exact hw (List.mem_of_mem_erase hmem)
                have heq2 : (ids.erase wid).erase wid = ids.erase wid :=
                  List.erase_of_not_mem hnomem
                rw [removeClient_eq_set _ wid c n (ids.erase wid) hc h0 hg2 (by
                  rw [heq2]; exact he)]
                rw [heq2]
                have : mapSet (mapSet st.groups (companyKeyOfInt n) (ids.erase wid))
                    (companyKeyOfInt n) (ids.erase wid)
                    = mapSet st.groups (companyKeyOfInt n) (ids.erase wid) :=
                  mapSet_mapSet_self st.groups (companyKeyOfInt n) (ids.erase wid)
                    (ids.erase wid)
                rw [this]
  · intro k x hx
    cases hc : c.companyId with
    | none => rw [removeClient_eq_of_none st wid c hc]
    | some n =>
        by_cases h0 : n = 0
        · rw [h0] at hc
          rw [removeClient_eq_of_zero st wid c hc]
        · cases hg : mapGet st.groups (companyKeyOfInt n) with
          | none => rw [removeClient_eq_of_absent st wid c n hc h0 hg]
          | some ids =>
              by_cases he : ids.erase wid = []
              · rw [removeClient_eq_delete st wid c n ids hc h0 hg he]
                dsimp only
                by_cases hk : k = companyKeyOfInt n
                · rw [hk, mapGet_mapDelete_self, hg]
                  simp only [Option.getD_none, Option.getD_some]
                  constructor
                  · intro hmem
                    exact absurd hmem (List.not_mem_nil x)
                  · intro hmem
                    rcases erase_eq_nil_cases ids wid he with hnil | hone
                    · rw [hnil] at hmem
                      exact absurd hmem (List.not_mem_nil x)
                    · rw [hone] at hmem
                      exact absurd (List.mem_singleton.mp hmem) hx
                · rw [mapGet_mapDelete_ne st.groups (companyKeyOfInt n) k hk]
              · rw [removeClient_eq_set st wid c n ids hc h0 hg he]
                dsimp only
                by_cases hk : k = companyKeyOfInt n
                · rw [hk, mapGet_mapSet_self, hg]
                  simp only [Option.getD_some]
                  exact List.mem_erase_of_ne hx
                · rw [mapGet_mapSet_ne st.groups (companyKeyOfInt n) k (ids.erase wid) hk]

def cRemW : ConnState := ⟨"u", some 2, RS.OPEN, some true⟩

def stRemW : WSState := ⟨[(5, cRemW)], [("company_2", [5]), ("company_3", [7])]⟩

/-- C8 (witness): removing connection 5 twice equals removing it once, and
connection 7 of the other tenant keeps its membership. -/
theorem removeClient_idempotent_witness :
    ((mapGet stRemW.groups (connGroupKey cRemW)).getD []).count 5 ≤ 1 ∧
    removeClient (removeClient stRemW 5 cRemW) 5 cRemW = removeClient stRemW 5 cRemW ∧
    (7 ∈ (mapGet (removeClient stRemW 5 cRemW).groups "company_3").getD [] ↔
     7 ∈ (mapGet stRemW.groups "company_3").getD []) := by
  have h := removeClient_idempotent stRemW 5 cRemW (by decide)
  exact ⟨by decide, h.1, h.2.2 "company_3" 7 (by decide)⟩

/-! ## Broadcast lemmas -/

theorem sendStep_foldl (st : WSState) (msgStr : String) (sendFails : Nat → Bool)
    (ids : List Nat) (d0 : List (Nat × String)) (e0 : List Nat) :
    ids.foldl (sendStep st msgStr sendFails) (d0, e0) =
      (d0 ++ (ids.filter (fun i => connOpen st i && !(sendFails i))).map
          (fun i => (i, msgStr)),
       e0 ++ ids.filter (fun i => connOpen st i && sendFails i)) := by
  induction ids generalizing d0 e0 with
  | nil => simp
  | cons i t ih =>
      rw [List.foldl_cons]
      by_cases ho : connOpen st i
      · by_cases hf : sendFails i
        · have hstep : sendStep st msgStr sendFails (d0, e0) i = (d0, e0 ++ [i]) := by
            unfold sendStep
            simp [ho, hf]
          rw [hstep, ih]
          simp [ho, hf]
        · have hstep : sendStep st msgStr sendFails (d0, e0) i
              = (d0 ++ [(i, msgStr)], e0) := by
            unfold sendStep
            simp [ho, hf]
          rw [hstep, ih]
          simp [ho, hf]
      · have hstep : sendStep st msgStr sendFails (d0, e0) i = (d0, e0) := by
          unfold sendStep
          simp [ho]
        rw [hstep, ih]
        simp [ho]

theorem errFold_conns (l : List Nat) (acc : WSState) :
    (l.foldl wsErrorEvent acc).conns = acc.conns := by
  induction l generalizing acc with
  | nil => rfl
  | cons i t ih => rw [List.foldl_cons, ih, wsErrorEvent_conns]

theorem errFold_idFree (l : List Nat) (acc : WSState) (x : Nat)
    (h : idFreeGroups acc.groups x) : idFreeGroups (l.foldl wsErrorEvent acc).groups x := by
  induction l generalizing acc with
  | nil => exact h
  | cons i t ih =>
      apply ih
      unfold wsErrorEvent
      cases connGet acc i with
      | none => exact h
      | some c => exact idFree_removeClient acc i c x h

theorem errFold_nodup (l : List Nat) (acc : WSState)
    (h : (acc.groups.map Prod.fst).Nodup) :
    ((l.foldl wsErrorEvent acc).groups.map Prod.fst).Nodup := by
  induction l generalizing acc with
  | nil => exact h
  | cons i t ih =>
      apply ih
      unfold wsErrorEvent
      cases connGet acc i with
      | none => exact h
      | some c => exact keysNodup_removeClient acc i c h

theorem errFold_onlyKeyCnt (l : List Nat) (acc : WSState) (x : Nat) (k : String)
    (h : OnlyKeyCnt acc.groups x k) : OnlyKeyCnt (l.foldl wsErrorEvent acc).groups x k := by
  induction l generalizing acc with
  | nil => exact h
  | cons i t ih =>
      apply ih
      unfold wsErrorEvent
      cases connGet acc i with
      | none => exact h
      | some c => exact onlyKeyCnt_removeClient acc i c x k h

theorem connGet_eq_of_conns_eq (st1 st2 : WSState) (x : Nat)
    (h : st1.conns = st2.conns) : connGet st1 x = connGet st2 x := by
  unfold connGet
  rw [h]

theorem errFold_removes (l : List Nat) (acc : WSState) (wid : Nat) (c : ConnState) (n : Int)
    (hm : wid ∈ l)
    (hcg : connGet acc wid = some c) (hc : c.companyId = some n) (h0 : n ≠ 0)
    (hnd : (acc.groups.map Prod.fst).Nodup)
    (hok : OnlyKeyCnt acc.groups wid (companyKeyOfInt n)) :
    idFreeGroups (l.foldl wsErrorEvent acc).groups wid := by
  induction l generalizing acc with
  | nil => simp at hm
  | cons i t ih =>
      by_cases hi : i = wid
      · rw [List.foldl_cons]
        apply errFold_idFree
        rw [hi]
        unfold wsErrorEvent
        rw [hcg]
        exact removeClient_removes acc wid c n hc h0 hnd hok
      · rcases List.mem_cons.mp hm with he | hm2
        · exact absurd he.symm hi
        · have hconns : (wsErrorEvent acc i).conns = acc.conns := wsErrorEvent_conns acc i
          refine ih (wsErrorEvent acc i) hm2 ?_ ?_ ?_
          · rw [connGet_eq_of_conns_eq (wsErrorEvent acc i) acc wid hconns]
            exact hcg
          · unfold wsErrorEvent
            cases connGet acc i with
            | none => exact hnd
            | some c2 => exact keysNodup_removeClient acc i c2 hnd
          · unfold wsErrorEvent
            cases connGet acc i with
            | none => exact hok
            | some c2 => exact onlyKeyCnt_removeClient acc i c2 wid (companyKeyOfInt n) hok

/-! ## Claim theorems: broadcast -/

/-- C1: `Publish(T, E)` delivers exactly the serialized event to exactly the
connections that are in tenant `T`'s group and in the `OPEN` state at call
time: a pair `(wid, s)` is delivered iff `s` is the serialization of `E`,
`wid` is in `T`'s group and `wid`'s socket is open.  Connections of other
tenants, and group members that are not open, receive nothing (the
right-to-left reading of the equivalence).  The environment oracle is fixed
to all-sends-succeed; fault behaviour is treated with the failure claim. -/
theorem broadcastToCompany_delivers_iff (st : WSState) (companyId : Int) (msg : JsVal)
    (wid : Nat) (s : String) :
    ((wid, s) ∈ (broadcastToCompany st companyId msg (fun _ => false)).delivered) ↔
      (s = jsonStringify msg ∧ wid ∈ groupConns st companyId ∧ connOpen st wid = true) := by
  unfold broadcastToCompany groupConns
  cases hg : mapGet st.groups (companyKeyOfInt companyId) with
  | none => simp
  | some ids =>
      dsimp only
      rw [sendStep_foldl]
      simp only [List.nil_append, Option.getD_some, List.mem_map, List.mem_filter,
        Bool.not_false, Bool.and_true]
      constructor
      · rintro ⟨i, ⟨hmem, hopen⟩, heq⟩
        have h1 : i = wid := congrArg Prod.fst heq
        have h2 : jsonStringify msg = s := congrArg Prod.snd heq
        subst h1
        exact ⟨h2.symm, hmem, hopen⟩
      · rintro ⟨hs, hmem, hopen⟩
        exact ⟨wid, ⟨hmem, hopen⟩, by rw [hs]⟩

def cB1 : ConnState := ⟨"a", some 3, RS.OPEN, some true⟩

def cB2 : ConnState := ⟨"b", some 4, RS.OPEN, some true⟩

def stBroadcastW : WSState :=
  ⟨[(1, cB1), (2, cB2)], [("company_3", [1]), ("company_4", [2])]⟩

/-- C1 (witness): publishing to tenant 3 delivers the serialized event to its
open connection 1 and not to connection 2, which belongs to tenant 4. -/
theorem broadcastToCompany_delivers_iff_witness :
    ((1, jsonStringify (JsVal.vNum 7)) ∈
      (broadcastToCompany stBroadcastW 3 (JsVal.vNum 7) (fun _ => false)).delivered) ∧
    ((2, jsonStringify (JsVal.vNum 7)) ∉
      (broadcastToCompany stBroadcastW 3 (JsVal.vNum 7) (fun _ => false)).delivered) := by
  constructor
  · exact (broadcastToCompany_delivers_iff stBroadcastW 3 (JsVal.vNum 7) 1
      (jsonStringify (JsVal.vNum 7))).mpr ⟨rfl, by decide, by decide⟩
  · intro hmem
    have h := (broadcastToCompany_delivers_iff stBroadcastW 3 (JsVal.vNum 7) 2
      (jsonStringify (JsVal.vNum 7))).mp hmem
    exact absurd h.2.1 (by decide)

/-- C4: for any set of per-connection write failures during `Publish`:
every open group member with a succeeding write still receives the event
(failures on other connections never block delivery, and the loop runs to
completion instead of raising — the `ws` library surfaces an open-socket
send failure on the socket's `error` event, not as an exception to the
caller); the `failed` output lists exactly the open group members whose
write failed, and each of them is routed to the registered error listener,
which logs it and runs `removeClient` — so a failing connection with a
truthy company id registered only in its own group is no longer in any
group afterwards.  The socket set itself is untouched by the broadcast. -/
theorem broadcastToCompany_failure_handling (st : WSState) (companyId : Int)
    (msg : JsVal) (sendFails : Nat → Bool) :
    (∀ wid s, ((wid, s) ∈ (broadcastToCompany st companyId msg sendFails).delivered) ↔
        (s = jsonStringify msg ∧ wid ∈ groupConns st companyId ∧
         connOpen st wid = true ∧ sendFails wid = false)) ∧
    (∀ wid, (wid ∈ (broadcastToCompany st companyId msg sendFails).failed) ↔
        (wid ∈ groupConns st companyId ∧ connOpen st wid = true ∧
         sendFails wid = true)) ∧
    ((broadcastToCompany st companyId msg sendFails).state.conns = st.conns) ∧
    (∀ wid c n, wid ∈ (broadcastToCompany st companyId msg sendFails).failed →
        connGet st wid = some c → c.companyId = some n → n ≠ 0 →
        (st.groups.map Prod.fst).Nodup →
        OnlyKeyCnt st.groups wid (companyKeyOfInt n) →
        idFreeGroups (broadcastToCompany st companyId msg sendFails).state.groups wid) := by
  unfold broadcastToCompany
  cases hg : mapGet st.groups (companyKeyOfInt companyId) with
  | none =>
      refine ⟨?_, ?_, rfl, ?_⟩
      · intro wid s
        unfold groupConns
        rw [hg]
        simp
      · intro wid
        unfold groupConns
        rw [hg]
        simp
      · intro wid c n hm
        simp at hm
  | some ids =>
      dsimp only
      rw [sendStep_foldl]
      simp only [List.nil_append]
      refine ⟨?_, ?_, errFold_conns _ st, ?_⟩
      · intro wid s
        unfold groupConns
        rw [hg]
        simp only [Option.getD_some, List.mem_map, List.mem_filter, Bool.and_eq_true,
          Bool.not_eq_true']
        constructor
        · rintro ⟨i, ⟨hmem, hopen, hf⟩, heq⟩
          have h1 : i = wid := congrArg Prod.fst heq
          have h2 : jsonStringify msg = s := congrArg Prod.snd heq
          subst h1
          exact ⟨h2.symm, hmem, hopen, hf⟩
        · rintro ⟨hs, hmem, hopen, hf⟩
          exact ⟨wid, ⟨hmem, hopen, hf⟩, by rw [hs]⟩
      · intro wid
        unfold groupConns
        rw [hg]
        simp [List.mem_filter]
      · intro wid c n hm hcg hc h0 hnd hok
        simp only [List.mem_filter, Bool.and_eq_true] at hm
        exact errFold_removes _ st wid c n (by
          exact List.mem_filter.mpr ⟨hm.1, by simp [hm.2.1, hm.2.2]⟩) hcg hc h0 hnd hok

def cF1 : ConnState := ⟨"a", some 3, RS.OPEN, some true⟩

def cF2 : ConnState := ⟨"b", some 3, RS.OPEN, some true⟩

def stFailW : WSState :=
  ⟨[(1, cF1), (2, cF2)], [("company_3", [1, 2])]⟩

def failsOn1 : Nat → Bool := fun i => decide (i = 1)

/-- C4 (witness): with two open connections of tenant 3 and a write failure
on connection 1, connection 2 still receives the event, connection 1 is
listed as failed and is gone from every group of the post-broadcast state,
and the socket set is unchanged. -/
theorem broadcastToCompany_failure_handling_witness :
    ((2, jsonStringify JsVal.vNull) ∈
        (broadcastToCompany stFailW 3 JsVal.vNull failsOn1).delivered) ∧
    (1 ∈ (broadcastToCompany stFailW 3 JsVal.vNull failsOn1).failed) ∧
    ((broadcastToCompany stFailW 3 JsVal.vNull failsOn1).state.conns = stFailW.conns) ∧
    (1 ∉ (mapGet (broadcastToCompany stFailW 3 JsVal.vNull failsOn1).state.groups
        "company_3").getD []) := by
  have h := broadcastToCompany_failure_handling stFailW 3 JsVal.vNull failsOn1
  have hdel := (h.1 2 (jsonStringify JsVal.vNull)).mpr ⟨rfl, by decide, by decide, by decide⟩
  have hfail := (h.2.1 1).mpr ⟨by decide, by decide, by decide⟩
  have hrem := h.2.2.2 1 cF1 3 hfail rfl rfl (by decide) (by decide) (by decide)
  refine ⟨hdel, hfail, h.2.2.1, ?_⟩
  cases hq : mapGet (broadcastToCompany stFailW 3 JsVal.vNull failsOn1).state.groups
      "company_3" with
  | none => simp
  | some g =>
      simp only [Option.getD_some]
      exact hrem ("company_3", g) (mapGet_mem _ _ _ hq)
